import Mathlib

/-!
Verification of the merge/deduplication engine of `merge-logs.py`.

The script walks every git revision of one tracked file, oldest to newest,
splits each revision's snapshot into lines, parses each non-blank line as a
JSON document, and folds the resulting records into an insertion-ordered
dictionary keyed by the tuple `(event, user_id, time)`; at the end the
dictionary's values are written out, one JSON document per line.

The embedding below translates the script's data model and main loop into
Lean.  JSON documents are modelled by the inductive type `Json` (numbers as
integers; the identity fields of the analytics data are strings and integral
timestamps).  Python's `==` on parsed JSON values — the equality used by the
dictionary `all_events` for key lookups — treats booleans as the numbers 0
and 1; it is modelled by `pyEq`, structural equality after canonicalising
booleans to numbers.  Python dictionaries compare order-insensitively, while
`pyEq` compares object fields in order; the difference is unobservable in the
script because a list- or object-valued identity field would make the tuple
key unhashable and the dictionary operations at line 132 raise `TypeError`.
`json.loads` itself is an external library and enters the model as a parse
oracle `parse : String → Option Event` (`none` models `json.JSONDecodeError`).
-/

/-- A parsed JSON value (`json.loads` result); numbers modelled as integers. -/
inductive Json where
  | null
  | bool (b : Bool)
  | num (n : Int)
  | str (s : String)
  | arr (xs : List Json)
  | obj (fields : List (String × Json))

mutual

/-- Structural (constructor-wise) equality test on `Json`. -/
def jeq : Json → Json → Bool
  | .null, .null => true
  | .bool a, .bool b => a == b
  | .num a, .num b => a == b
  | .str a, .str b => a == b
  | .arr a, .arr b => jeqList a b
  | .obj a, .obj b => jeqObj a b
  | _, _ => false

def jeqList : List Json → List Json → Bool
  | [], [] => true
  | a :: as, b :: bs => jeq a b && jeqList as bs
  | _, _ => false

def jeqObj : List (String × Json) → List (String × Json) → Bool
  | [], [] => true
  | (ka, va) :: as, (kb, vb) :: bs => ka == kb && jeq va vb && jeqObj as bs
  | _, _ => false

end


mutual

/-- Canonical form of a `Json` value under Python `==`: booleans become the
numbers 0 and 1 (in Python, `True == 1` and `False == 0`, also inside
containers); everything else is kept, recursing into containers. -/
def canon : Json → Json
  | .null => .null
  | .bool b => .num (if b then 1 else 0)
  | .num n => .num n
  | .str s => .str s
  | .arr xs => .arr (canonList xs)
  | .obj xs => .obj (canonObj xs)

def canonList : List Json → List Json
  | [] => []
  | x :: xs => canon x :: canonList xs

def canonObj : List (String × Json) → List (String × Json)
  | [] => []
  | (k, v) :: xs => (k, canon v) :: canonObj xs

end

/-- Python `==` on parsed JSON values: equality after canonicalisation.
Strings never equal numbers, `None` only equals `None`, booleans equal the
numbers 0/1, containers compare element-wise. -/
def pyEq (a b : Json) : Bool := jeq (canon a) (canon b)

/-- A parsed record: the field list of the JSON object for one line
(`event = json.loads(line)`, merge-logs.py:121). -/
abbrev Event : Type := List (String × Json)

/-- The identity tuple type: `(event, user_id, time)` (merge-logs.py:125). -/
abbrev RecordKey : Type := Json × Json × Json

/-- `event.get(key, default)` on a parsed JSON object (Python `dict.get`;
parsed objects have pairwise-distinct field names, so first match suffices). -/
def jget (e : Event) (key : String) (default : Json) : Json :=
  match e.find? (fun p => p.1 == key) with
  | some p => p.2
  | none => default

/-- The dedup key of a record (merge-logs.py:125-129):
`(event.get("event", ""), event.get("user_id", ""), event.get("time", 0))`. -/
def event_key (e : Event) : RecordKey :=
  (jget e "event" (.str ""), jget e "user_id" (.str ""), jget e "time" (.num 0))

/-- Python `==` on the 3-tuple keys: component-wise `pyEq`. -/
def keyEq (a b : RecordKey) : Bool :=
  pyEq a.1 b.1 && pyEq a.2.1 b.2.1 && pyEq a.2.2 b.2.2

/-- Canonical form of a key; `keyEq` is equality of canonical forms. -/
def canonKey (k : RecordKey) : RecordKey := (canon k.1, canon k.2.1, canon k.2.2)

/-- Python `str.strip()`: drop leading and trailing whitespace
(space, tab, newline, carriage return, vertical tab, form feed). -/
def isPySpace (c : Char) : Bool :=
  c = ' ' || c = '\t' || c = '\n' || c = '\r' || c = '\x0b' || c = '\x0c'

def pyStrip (s : String) : String :=
  String.mk (((s.toList.dropWhile isPySpace).reverse.dropWhile isPySpace).reverse)

/-- Python `s.split("\n")`: split at every newline; the empty string yields
the one-element list `[""]`, never `[]`. -/
def splitNlAux : List Char → List Char → List String
  | [], cur => [String.mk cur.reverse]
  | c :: cs, cur =>
    if c = '\n' then String.mk cur.reverse :: splitNlAux cs []
    else splitNlAux cs (c :: cur)

def pySplitNl (s : String) : List String := splitNlAux s.toList []

/-- The state of the merge loop in `main` (merge-logs.py:95-102): the
insertion-ordered dictionary `all_events` (modelled as the list of its
entries in insertion order) and the counters.  The script reports each
`json.JSONDecodeError` on its diagnostic stream (line 139) without keeping a
variable for it; `n_parse_errors` counts those events (the spec's
`parseFailures` statistic).  The `n_unique_last`/`n_skipped_last` variables
only drive per-revision progress prints and carry no merge semantics. -/
structure RunState where
  all_events : List (RecordKey × Event)
  n_unique : Nat
  n_skipped : Nat
  n_lines : Nat
  n_parse_errors : Nat

/-- The state at the start of `main`'s loop: empty store, zero counters. -/
def initState : RunState :=
  { all_events := [], n_unique := 0, n_skipped := 0, n_lines := 0, n_parse_errors := 0 }

/-- The membership test `event_key in all_events` (merge-logs.py:132): the
Python dictionary holds a key iff some stored key compares `==` to it. -/
def isDup (store : List (RecordKey × Event)) (k : RecordKey) : Bool :=
  store.any (fun p => keyEq p.1 k)

/-- One iteration of the per-line loop (merge-logs.py:116-139).
`parse` is the `json.loads` oracle: `parse line = some e` when the line
parses to the object with field list `e`, `none` when `json.JSONDecodeError`
is raised.  A line whose `strip()` is empty is skipped (lines 117-118);
otherwise the record's key is computed and the record is inserted if the key
is absent (lines 131-134) or discarded with `n_skipped` incremented if
present (lines 135-136); a parse error is reported and the loop continues
(lines 138-139). -/
def processLine (parse : String → Option Event) (st : RunState) (line : String) :
    RunState :=
  if pyStrip line = "" then st
  else
    match parse line with
    | some event =>
      let k := event_key event
      if isDup st.all_events k then
        { st with n_skipped := st.n_skipped + 1 }
      else
        { st with all_events := st.all_events ++ [(k, event)],
                  n_unique := st.n_unique + 1 }
    | none => { st with n_parse_errors := st.n_parse_errors + 1 }

/-- One iteration of the per-revision loop (merge-logs.py:103-144) given the
snapshot already split into lines.  `none` models
`get_file_content_at_commit` returning `None`: the revision is skipped
(lines 107-109) — no lines counted, store and counters untouched.  Otherwise
`n_lines` grows by the line count (lines 113-114) and every line is fed to
the per-line loop in file order (line 116). -/
def processRevision (parse : String → Option Event) (st : RunState)
    (content : Option (List String)) : RunState :=
  match content with
  | none => st
  | some ls => ls.foldl (processLine parse) { st with n_lines := st.n_lines + ls.length }

/-- The whole merge loop over an oldest-to-newest sequence of snapshots
(each `Option (List String)`: the lines of the revision's snapshot, or
`none` when the snapshot cannot be read). -/
def runMerge (parse : String → Option Event) (revs : List (Option (List String))) :
    RunState :=
  revs.foldl (processRevision parse) initState

/-- Splitting a snapshot's text into lines: `content.strip().split("\n")`
(merge-logs.py:112). -/
def contentLines (content : String) : List String := pySplitNl (pyStrip content)

/-- `get_file_commits` (merge-logs.py:63-69) as a function of the `git log`
invocation's result: `None` (command failed) yields `[]`; otherwise the
output is stripped and split on newlines — for empty output this is `[""]`. -/
def get_file_commits (output : Option String) : List String :=
  match output with
  | none => []
  | some out => pySplitNl (pyStrip out)

/-- The merge loop as driven by `main` (merge-logs.py:103-144): the commit
list is traversed in reverse (oldest first, line 103), each commit's
snapshot is fetched (`snap`, modelling `get_file_content_at_commit`) and
split into lines. -/
def mainMerge (parse : String → Option Event) (commits : List String)
    (snap : String → Option String) : RunState :=
  (commits.reverse).foldl
    (fun st c => processRevision parse st ((snap c).map contentLines)) initState

/-- The end of `main` (merge-logs.py:150-159 and 80-82): either the run
fails with exit status 1 and no output file, or the output file is written
with the given records (one serialized record per line, in order) and the
run succeeds. -/
inductive RunOutcome where
  | failure
  | success (written : List Event)

/-- The write-or-fail decision (merge-logs.py:150-157): an empty store exits
with status 1 and writes nothing; otherwise the store's values are written
in iteration order. -/
def finalOutcome (st : RunState) : RunOutcome :=
  if st.all_events.isEmpty then .failure
  else .success (st.all_events.map (fun p => p.2))

/-- The whole of `main`: `repoOk` is the result of
`check_repo_exists() or clone_repo()` (merge-logs.py:80-82); when false the
script exits with status 1 before any merging. -/
def mainResult (repoOk : Bool) (parse : String → Option Event)
    (revs : List (Option (List String))) : RunOutcome :=
  if repoOk then finalOutcome (runMerge parse revs) else .failure

/-! ### Characterisation layer

The per-line loop, restricted to its effect on `all_events`, is an
insertion into an insertion-ordered map keyed by `event_key` under `keyEq`.
The lemmas below prove that `runMerge` computes exactly the first-occurrence
deduplication (`dedupFirst`) of the flattened record traversal. -/

/-- The record produced by one line, if any: `none` for a blank line and for
a line that fails to parse. -/
def lineRecord (parse : String → Option Event) (line : String) : Option Event :=
  if pyStrip line = "" then none else parse line

/-- All records contributed by one revision, in line order (a skipped
revision contributes none). -/
def revRecords (parse : String → Option Event) : Option (List String) → List Event
  | none => []
  | some ls => ls.filterMap (lineRecord parse)

/-- The global traversal: all successfully parsed records, in
oldest-revision-first, then line order. -/
def traversal (parse : String → Option Event) : List (Option (List String)) → List Event
  | [] => []
  | r :: rs => revRecords parse r ++ traversal parse rs

/-- First-occurrence insertion: add a record to the ordered store unless its
key is already present. -/
def insertEvent (store : List (RecordKey × Event)) (e : Event) :
    List (RecordKey × Event) :=
  if isDup store (event_key e) then store else store ++ [(event_key e, e)]

/-- First-occurrence deduplication of a record sequence. -/
def dedupFirst (es : List Event) : List (RecordKey × Event) :=
  es.foldl insertEvent []

/-- A line is non-blank when its `strip()` is nonempty. -/
def nonBlank (line : String) : Bool := !(pyStrip line == "")

/-- Total non-blank lines over the non-skipped revisions. -/
def countNonBlank : List (Option (List String)) → Nat
  | [] => 0
  | none :: rs => countNonBlank rs
  | some ls :: rs => ls.countP nonBlank + countNonBlank rs

/-- Index of the first record in a traversal whose key matches `k`. -/
def firstHit (k : RecordKey) : List Event → Nat
  | [] => 0
  | e :: es => if keyEq (event_key e) k then 0 else firstHit k es + 1

/-! ### Concrete records and oracles for closed-instance checks -/

/-- A record with only an "event" field, value `"x"`. -/
def evX : Event := [("event", Json.str "x")]

/-- A record with only an "event" field, value `"y"`. -/
def evY : Event := [("event", Json.str "y")]

/-- A record whose "user_id" is the boolean `true`. -/
def evUBool : Event := [("event", Json.str "x"), ("user_id", Json.bool true), ("time", Json.num 0)]

/-- A record whose "user_id" is the number `1`. -/
def evUNum : Event := [("event", Json.str "x"), ("user_id", Json.num 1), ("time", Json.num 0)]

/-- A parse oracle with two distinct records on lines "a" and "b". -/
def pXY : String → Option Event :=
  fun s => if s = "a" then some evX else if s = "b" then some evY else none

/-- A parse oracle with one record on line "a"; everything else fails. -/
def pDup : String → Option Event := fun s => if s = "a" then some evX else none

/-- A parse oracle distinguishing the boolean and numeric "user_id" records. -/
def pBoolNum : String → Option Event :=
  fun s => if s = "t" then some evUBool else if s = "n" then some evUNum else none

mutual

theorem jeq_iff : ∀ (a b : Json), jeq a b = true ↔ a = b
  | .null, b => by cases b <;> simp [jeq]
  | .bool x, b => by cases b <;> simp [jeq]
  | .num n, b => by cases b <;> simp [jeq]
  | .str s, b => by cases b <;> simp [jeq]
  | .arr xs, b => by
      cases b <;> simp [jeq]
      case arr ys => exact jeqList_iff xs ys
  | .obj xs, b => by
      cases b <;> simp [jeq]
      case obj ys => exact jeqObj_iff xs ys

theorem jeqList_iff : ∀ (xs ys : List Json), jeqList xs ys = true ↔ xs = ys
  | [], ys => by cases ys <;> simp [jeqList]
  | x :: xs, ys => by
      cases ys <;> simp [jeqList]
      case cons y ys => rw [jeq_iff x y, jeqList_iff xs ys]

theorem jeqObj_iff : ∀ (xs ys : List (String × Json)), jeqObj xs ys = true ↔ xs = ys
  | [], ys => by cases ys <;> simp [jeqObj]
  | (k, v) :: xs, ys => by
      cases ys <;> simp [jeqObj]
      case cons y ys =>
        cases y with
        | mk k2 v2 => simp [jeq_iff v v2, jeqObj_iff xs ys]

end

theorem pyEq_iff_canon (a b : Json) : pyEq a b = true ↔ canon a = canon b :=
  jeq_iff _ _

theorem keyEq_iff_canonKey (a b : RecordKey) :
    keyEq a b = true ↔ canonKey a = canonKey b := by
  simp [keyEq, canonKey, pyEq_iff_canon, Prod.mk.injEq, and_assoc]

theorem keyEq_refl (a : RecordKey) : keyEq a a = true := by
  rw [keyEq_iff_canonKey]

theorem keyEq_symm {a b : RecordKey} (h : keyEq a b = true) : keyEq b a = true := by
  rw [keyEq_iff_canonKey] at h ⊢; exact h.symm

theorem keyEq_trans {a b c : RecordKey} (h1 : keyEq a b = true)
    (h2 : keyEq b c = true) : keyEq a c = true := by
  rw [keyEq_iff_canonKey] at h1 h2 ⊢; exact h1.trans h2

theorem isDup_iff (store : List (RecordKey × Event)) (k : RecordKey) :
    isDup store k = true ↔ ∃ p ∈ store, keyEq p.1 k = true := by
  simp [isDup, List.any_eq_true]

theorem isDup_eq_false_iff (store : List (RecordKey × Event)) (k : RecordKey) :
    isDup store k = false ↔ ∀ p ∈ store, keyEq p.1 k = false := by
  simp [isDup, List.any_eq_false]

theorem processLine_blank (parse : String → Option Event) (st : RunState)
    (line : String) (h : pyStrip line = "") :
    processLine parse st line = st := by
  simp [processLine, h]

theorem processLine_bad (parse : String → Option Event) (st : RunState)
    (line : String) (h : pyStrip line ≠ "") (hp : parse line = none) :
    processLine parse st line = { st with n_parse_errors := st.n_parse_errors + 1 } := by
  simp [processLine, h, hp]

theorem processLine_dup (parse : String → Option Event) (st : RunState)
    (line : String) (e : Event) (h : pyStrip line ≠ "") (hp : parse line = some e)
    (hd : isDup st.all_events (event_key e) = true) :
    processLine parse st line = { st with n_skipped := st.n_skipped + 1 } := by
  simp [processLine, h, hp, hd]

theorem processLine_new (parse : String → Option Event) (st : RunState)
    (line : String) (e : Event) (h : pyStrip line ≠ "") (hp : parse line = some e)
    (hd : isDup st.all_events (event_key e) = false) :
    processLine parse st line =
      { st with all_events := st.all_events ++ [(event_key e, e)],
                n_unique := st.n_unique + 1 } := by
  simp [processLine, h, hp, hd]

/-- On `all_events`, one line acts as `insertEvent` on its record (if any). -/
theorem processLine_all_events (parse : String → Option Event) (st : RunState)
    (line : String) :
    (processLine parse st line).all_events =
      match lineRecord parse line with
      | none => st.all_events
      | some e => insertEvent st.all_events e := by
  by_cases h : pyStrip line = ""
  · simp [processLine, lineRecord, h]
  · cases hp : parse line with
    | none => simp [processLine, lineRecord, h, hp]
    | some e =>
      simp only [processLine, lineRecord, h, hp, if_neg h]
      by_cases hd : isDup st.all_events (event_key e) = true
      · simp [hd, insertEvent]
      · simp only [Bool.not_eq_true] at hd
        simp [hd, insertEvent]

theorem foldl_processLine_all_events (parse : String → Option Event)
    (ls : List String) (st : RunState) :
    (ls.foldl (processLine parse) st).all_events =
      (ls.filterMap (lineRecord parse)).foldl insertEvent st.all_events := by
  induction ls generalizing st with
  | nil => rfl
  | cons line rest ih =>
    rw [List.foldl_cons, ih]
    cases hr : lineRecord parse line with
    | none => rw [List.filterMap_cons_none hr, processLine_all_events, hr]
    | some e =>
      rw [List.filterMap_cons_some hr, List.foldl_cons, processLine_all_events, hr]

theorem processRevision_all_events (parse : String → Option Event) (st : RunState)
    (content : Option (List String)) :
    (processRevision parse st content).all_events =
      (revRecords parse content).foldl insertEvent st.all_events := by
  cases content with
  | none => rfl
  | some ls => rw [processRevision, revRecords, foldl_processLine_all_events]

theorem foldl_processRevision_all_events (parse : String → Option Event)
    (revs : List (Option (List String))) (st : RunState) :
    (revs.foldl (processRevision parse) st).all_events =
      (traversal parse revs).foldl insertEvent st.all_events := by
  induction revs generalizing st with
  | nil => rfl
  | cons r rs ih =>
    rw [List.foldl_cons, ih, traversal, List.foldl_append, processRevision_all_events]

/-- The store computed by the merge loop is exactly the first-occurrence
deduplication of the global record traversal. -/
theorem runMerge_all_events (parse : String → Option Event)
    (revs : List (Option (List String))) :
    (runMerge parse revs).all_events = dedupFirst (traversal parse revs) := by
  rw [runMerge, dedupFirst, foldl_processRevision_all_events]; rfl

theorem dedupFirst_append_singleton (es : List Event) (e : Event) :
    dedupFirst (es ++ [e]) = insertEvent (dedupFirst es) e := by
  rw [dedupFirst, dedupFirst, List.foldl_append, List.foldl_cons, List.foldl_nil]

theorem mem_insertEvent_of_mem {store : List (RecordKey × Event)} {e : Event}
    {p : RecordKey × Event} (h : p ∈ store) : p ∈ insertEvent store e := by
  rw [insertEvent]
  split
  · exact h
  · exact List.mem_append_left _ h

/-- Every store entry is keyed by its own record's key, and its record came
from the traversal. -/
theorem dedupFirst_entry (es : List Event) :
    ∀ p ∈ dedupFirst es, p.1 = event_key p.2 ∧ p.2 ∈ es := by
  induction es using List.reverseRecOn with
  | nil => intro p hp; simp [dedupFirst] at hp
  | append_singleton es e ih =>
    intro p hp
    rw [dedupFirst_append_singleton, insertEvent] at hp
    split at hp
    · obtain ⟨h1, h2⟩ := ih p hp
      exact ⟨h1, List.mem_append_left _ h2⟩
    · rcases List.mem_append.mp hp with h | h
      · obtain ⟨h1, h2⟩ := ih p h
        exact ⟨h1, List.mem_append_left _ h2⟩
      · rcases List.mem_singleton.mp h with rfl
        exact ⟨rfl, List.mem_append_right _ (List.mem_singleton.mpr rfl)⟩

/-- Every traversed record has a matching-key entry in the store. -/
theorem dedupFirst_complete (es : List Event) :
    ∀ e ∈ es, ∃ p ∈ dedupFirst es, keyEq p.1 (event_key e) = true := by
  induction es using List.reverseRecOn with
  | nil => intro e he; simp at he
  | append_singleton es e0 ih =>
    intro e he
    rw [dedupFirst_append_singleton]
    rcases List.mem_append.mp he with h | h
    · obtain ⟨p, hp, hk⟩ := ih e h
      exact ⟨p, mem_insertEvent_of_mem hp, hk⟩
    · rcases List.mem_singleton.mp h with rfl
      rw [insertEvent]
      split
      · next hd => exact (isDup_iff _ _).mp hd
      · exact ⟨(event_key e, e), List.mem_append_right _ (List.mem_singleton.mpr rfl),
          keyEq_refl _⟩

/-- No record of `es` matches a key that is absent from `dedupFirst es`. -/
theorem not_mem_traversal_of_not_isDup {es : List Event} {k : RecordKey}
    (h : isDup (dedupFirst es) k = false) :
    ∀ e ∈ es, keyEq (event_key e) k = false := by
  intro e he
  by_contra hc
  rw [Bool.not_eq_false] at hc
  obtain ⟨p, hp, hk⟩ := dedupFirst_complete es e he
  have : keyEq p.1 k = true := keyEq_trans hk hc
  rw [isDup_eq_false_iff] at h
  rw [h p hp] at this
  exact Bool.false_ne_true this

/-- The stored record for a key is the first traversed record whose key
matches it. -/
theorem dedupFirst_find (es : List Event) :
    ∀ p ∈ dedupFirst es, es.find? (fun e => keyEq (event_key e) p.1) = some p.2 := by
  induction es using List.reverseRecOn with
  | nil => intro p hp; simp [dedupFirst] at hp
  | append_singleton es e0 ih =>
    intro p hp
    rw [dedupFirst_append_singleton, insertEvent] at hp
    split at hp
    · have := ih p hp
      rw [List.find?_append, this]; simp
    · next hd =>
      rw [Bool.not_eq_true] at hd
      rcases List.mem_append.mp hp with h | h
      · have := ih p h
        rw [List.find?_append, this]; simp
      · rcases List.mem_singleton.mp h with rfl
        rw [List.find?_append]
        have hnone : es.find? (fun e => keyEq (event_key e) (event_key e0)) = none := by
          rw [List.find?_eq_none]
          intro e he
          have := not_mem_traversal_of_not_isDup hd e he
          simp [this]
        rw [hnone]
        simp [List.find?_cons, keyEq_refl]

/-- Store keys are pairwise distinct under Python key equality. -/
theorem dedupFirst_keys_distinct (es : List Event) :
    (dedupFirst es).Pairwise (fun p q => keyEq p.1 q.1 = false) := by
  induction es using List.reverseRecOn with
  | nil => simp [dedupFirst]
  | append_singleton es e ih =>
    rw [dedupFirst_append_singleton, insertEvent]
    split
    · exact ih
    · next hd =>
      rw [Bool.not_eq_true, isDup_eq_false_iff] at hd
      rw [List.pairwise_append]
      refine ⟨ih, List.pairwise_singleton _ _, ?_⟩
      intro p hp q hq
      rcases List.mem_singleton.mp hq with rfl
      exact hd p hp

theorem firstHit_append_left {k : RecordKey} {es1 : List Event} (es2 : List Event)
    (h : ∃ e ∈ es1, keyEq (event_key e) k = true) :
    firstHit k (es1 ++ es2) = firstHit k es1 := by
  induction es1 with
  | nil => simp at h
  | cons e es ih =>
    by_cases he : keyEq (event_key e) k = true
    · simp [firstHit, he]
    · obtain ⟨e0, he0, hk0⟩ := h
      rcases List.mem_cons.mp he0 with rfl | hmem
      · exact absurd hk0 he
      · simp only [List.cons_append, firstHit, if_neg he, List.append_eq]
        rw [ih ⟨e0, hmem, hk0⟩]

theorem firstHit_lt_length {k : RecordKey} {es : List Event}
    (h : ∃ e ∈ es, keyEq (event_key e) k = true) :
    firstHit k es < es.length := by
  induction es with
  | nil => simp at h
  | cons e es ih =>
    by_cases he : keyEq (event_key e) k = true
    · simp [firstHit, he]
    · obtain ⟨e0, he0, hk0⟩ := h
      rcases List.mem_cons.mp he0 with rfl | hmem
      · exact absurd hk0 he
      · simp only [firstHit, if_neg he, List.length_cons]
        exact Nat.succ_lt_succ (ih ⟨e0, hmem, hk0⟩)

theorem firstHit_append_no_match {k : RecordKey} {es1 : List Event} (es2 : List Event)
    (h : ∀ e ∈ es1, keyEq (event_key e) k = false) :
    firstHit k (es1 ++ es2) = es1.length + firstHit k es2 := by
  induction es1 with
  | nil => simp
  | cons e es ih =>
    have he : keyEq (event_key e) k = false := h e (List.mem_cons_self e es)
    simp only [List.cons_append, firstHit, he, Bool.false_eq_true, if_false,
      List.length_cons, List.append_eq]
    rw [ih (fun e0 h0 => h e0 (List.mem_cons_of_mem _ h0))]
    omega

/-- A store entry's own key is hit in the traversal it came from. -/
theorem entry_hit {es : List Event} {p : RecordKey × Event} (hp : p ∈ dedupFirst es) :
    ∃ e ∈ es, keyEq (event_key e) p.1 = true := by
  obtain ⟨h1, h2⟩ := dedupFirst_entry es p hp
  exact ⟨p.2, h2, by rw [h1]; exact keyEq_refl _⟩

/-- Store entries are ordered by the position of the first traversed record
matching their key: the earlier-inserted entry has the strictly earlier
first hit. -/
theorem dedupFirst_order (es : List Event) :
    (dedupFirst es).Pairwise (fun p q => firstHit p.1 es < firstHit q.1 es) := by
  induction es using List.reverseRecOn with
  | nil => simp [dedupFirst]
  | append_singleton es e0 ih =>
    rw [dedupFirst_append_singleton, insertEvent]
    split
    · exact List.Pairwise.imp_of_mem
        (fun {p q} hp hq hlt => by
          rw [firstHit_append_left [e0] (entry_hit hp),
            firstHit_append_left [e0] (entry_hit hq)]
          exact hlt) ih
    · next hd =>
      rw [Bool.not_eq_true] at hd
      rw [List.pairwise_append]
      refine ⟨List.Pairwise.imp_of_mem
        (fun {p q} hp hq hlt => by
          rw [firstHit_append_left [e0] (entry_hit hp),
            firstHit_append_left [e0] (entry_hit hq)]
          exact hlt) ih,
        List.pairwise_singleton _ _, ?_⟩
      intro p hp q hq
      rcases List.mem_singleton.mp hq with rfl
      rw [firstHit_append_left [e0] (entry_hit hp),
        firstHit_append_no_match [e0] (not_mem_traversal_of_not_isDup hd)]
      have := firstHit_lt_length (entry_hit hp)
      omega

/-! ### Counter lemmas -/

theorem processLine_sum (parse : String → Option Event) (st : RunState) (line : String) :
    (processLine parse st line).n_unique + (processLine parse st line).n_skipped
        + (processLine parse st line).n_parse_errors
      = st.n_unique + st.n_skipped + st.n_parse_errors
        + (if nonBlank line then 1 else 0) := by
  by_cases h : pyStrip line = ""
  · simp [processLine, nonBlank, h]
  · have hnb : nonBlank line = true := by simp [nonBlank, h]
    cases hp : parse line with
    | none => simp [processLine, h, hp, hnb]; omega
    | some e =>
      by_cases hd : isDup st.all_events (event_key e) = true
      · simp [processLine, h, hp, hd, hnb]; omega
      · rw [Bool.not_eq_true] at hd
        simp [processLine, h, hp, hd, hnb]; omega

theorem foldl_processLine_sum (parse : String → Option Event) (ls : List String)
    (st : RunState) :
    (ls.foldl (processLine parse) st).n_unique
        + (ls.foldl (processLine parse) st).n_skipped
        + (ls.foldl (processLine parse) st).n_parse_errors
      = st.n_unique + st.n_skipped + st.n_parse_errors + ls.countP nonBlank := by
  induction ls generalizing st with
  | nil => simp
  | cons line rest ih =>
    rw [List.foldl_cons, ih, processLine_sum, List.countP_cons]
    split <;> omega

theorem processRevision_sum (parse : String → Option Event) (st : RunState)
    (content : Option (List String)) :
    (processRevision parse st content).n_unique
        + (processRevision parse st content).n_skipped
        + (processRevision parse st content).n_parse_errors
      = st.n_unique + st.n_skipped + st.n_parse_errors
        + (match content with | none => 0 | some ls => ls.countP nonBlank) := by
  cases content with
  | none => rfl
  | some ls => rw [processRevision, foldl_processLine_sum]

theorem foldl_processRevision_sum (parse : String → Option Event)
    (revs : List (Option (List String))) (st : RunState) :
    (revs.foldl (processRevision parse) st).n_unique
        + (revs.foldl (processRevision parse) st).n_skipped
        + (revs.foldl (processRevision parse) st).n_parse_errors
      = st.n_unique + st.n_skipped + st.n_parse_errors + countNonBlank revs := by
  induction revs generalizing st with
  | nil => simp [countNonBlank]
  | cons r rs ih =>
    rw [List.foldl_cons, ih, processRevision_sum]
    cases r with
    | none => simp [countNonBlank]
    | some ls => simp [countNonBlank]; omega

/-- One line changes `n_unique + n_skipped` by one exactly when it yields a
record. -/
theorem processLine_record_count (parse : String → Option Event) (st : RunState)
    (line : String) :
    (processLine parse st line).n_unique + (processLine parse st line).n_skipped
      = st.n_unique + st.n_skipped
        + (match lineRecord parse line with | none => 0 | some _ => 1) := by
  by_cases h : pyStrip line = ""
  · simp [processLine, lineRecord, h]
  · cases hp : parse line with
    | none => simp [processLine, lineRecord, h, hp]
    | some e =>
      by_cases hd : isDup st.all_events (event_key e) = true
      · simp [processLine, lineRecord, h, hp, hd]; omega
      · rw [Bool.not_eq_true] at hd
        simp [processLine, lineRecord, h, hp, hd]; omega

theorem foldl_processLine_record_count (parse : String → Option Event)
    (ls : List String) (st : RunState) :
    (ls.foldl (processLine parse) st).n_unique
        + (ls.foldl (processLine parse) st).n_skipped
      = st.n_unique + st.n_skipped + (ls.filterMap (lineRecord parse)).length := by
  induction ls generalizing st with
  | nil => simp
  | cons line rest ih =>
    rw [List.foldl_cons, ih, processLine_record_count]
    cases hr : lineRecord parse line with
    | none => rw [List.filterMap_cons_none hr]; simp
    | some e => rw [List.filterMap_cons_some hr]; simp; omega

theorem foldl_processRevision_record_count (parse : String → Option Event)
    (revs : List (Option (List String))) (st : RunState) :
    (revs.foldl (processRevision parse) st).n_unique
        + (revs.foldl (processRevision parse) st).n_skipped
      = st.n_unique + st.n_skipped + (traversal parse revs).length := by
  induction revs generalizing st with
  | nil => simp [traversal]
  | cons r rs ih =>
    rw [List.foldl_cons, ih, traversal, List.length_append]
    cases r with
    | none => simp [revRecords, processRevision]
    | some ls =>
      rw [processRevision, foldl_processLine_record_count]
      simp [revRecords]; omega

/-- `n_unique` counts exactly the entries of `all_events`. -/
theorem processLine_unique_len (parse : String → Option Event) (st : RunState)
    (line : String) (h : st.n_unique = st.all_events.length) :
    (processLine parse st line).n_unique = (processLine parse st line).all_events.length := by
  by_cases hb : pyStrip line = ""
  · simpa [processLine, hb] using h
  · cases hp : parse line with
    | none => simpa [processLine, hb, hp] using h
    | some e =>
      by_cases hd : isDup st.all_events (event_key e) = true
      · simpa [processLine, hb, hp, hd] using h
      · rw [Bool.not_eq_true] at hd
        simp [processLine, hb, hp, hd, h]

theorem foldl_processLine_unique_len (parse : String → Option Event)
    (ls : List String) (st : RunState) (h : st.n_unique = st.all_events.length) :
    (ls.foldl (processLine parse) st).n_unique
      = (ls.foldl (processLine parse) st).all_events.length := by
  induction ls generalizing st with
  | nil => exact h
  | cons line rest ih => exact ih _ (processLine_unique_len parse st line h)

theorem foldl_processRevision_unique_len (parse : String → Option Event)
    (revs : List (Option (List String))) (st : RunState)
    (h : st.n_unique = st.all_events.length) :
    (revs.foldl (processRevision parse) st).n_unique
      = (revs.foldl (processRevision parse) st).all_events.length := by
  induction revs generalizing st with
  | nil => exact h
  | cons r rs ih =>
    refine ih _ ?_
    cases r with
    | none => exact h
    | some ls => exact foldl_processLine_unique_len parse ls _ h

theorem runMerge_unique_len (parse : String → Option Event)
    (revs : List (Option (List String))) :
    (runMerge parse revs).n_unique = (runMerge parse revs).all_events.length :=
  foldl_processRevision_unique_len parse revs initState rfl

/-- Skipping a revision is the identity on the whole state. -/
theorem foldl_processRevision_skip (parse : String → Option Event)
    (pre post : List (Option (List String))) (st : RunState) :
    (pre ++ none :: post).foldl (processRevision parse) st
      = (pre ++ post).foldl (processRevision parse) st := by
  rw [List.foldl_append, List.foldl_append, List.foldl_cons]
  rfl

/-! ### Parse failures — independence of the rest of the state -/

theorem processLine_parse_shift (parse : String → Option Event) (st : RunState)
    (line : String) (d : Nat) :
    processLine parse { st with n_parse_errors := st.n_parse_errors + d } line
      = { processLine parse st line with
          n_parse_errors := (processLine parse st line).n_parse_errors + d } := by
  by_cases h : pyStrip line = ""
  · simp [processLine, h]
  · cases hp : parse line with
    | none => simp [processLine, h, hp]; omega
    | some e =>
      by_cases hd : isDup st.all_events (event_key e) = true
      · simp [processLine, h, hp, hd]
      · rw [Bool.not_eq_true] at hd
        simp [processLine, h, hp, hd]

theorem foldl_processLine_parse_shift (parse : String → Option Event)
    (ls : List String) (st : RunState) (d : Nat) :
    ls.foldl (processLine parse) { st with n_parse_errors := st.n_parse_errors + d }
      = { ls.foldl (processLine parse) st with
          n_parse_errors := (ls.foldl (processLine parse) st).n_parse_errors + d } := by
  induction ls generalizing st with
  | nil => rfl
  | cons line rest ih =>
    rw [List.foldl_cons, List.foldl_cons, processLine_parse_shift, ih]

/-! ### Refeeding the output -/

theorem filterMap_lineRecord_serialized (parse2 : String → Option Event)
    (serialize : Event → String) (S : List (RecordKey × Event))
    (h : ∀ p ∈ S, pyStrip (serialize p.2) ≠ "" ∧ parse2 (serialize p.2) = some p.2) :
    (S.map (fun p => serialize p.2)).filterMap (lineRecord parse2)
      = S.map (fun p => p.2) := by
  induction S with
  | nil => rfl
  | cons p S ih =>
    obtain ⟨hb, hp⟩ := h p (List.mem_cons_self p S)
    have hr : lineRecord parse2 (serialize p.2) = some p.2 := by
      rw [lineRecord, if_neg hb, hp]
    rw [List.map_cons, List.map_cons, List.filterMap_cons_some hr,
      ih (fun q hq => h q (List.mem_cons_of_mem _ hq))]

/-- Folding the records of a store whose entries are self-keyed and whose
keys are pairwise distinct inserts every record afresh, in order. -/
theorem foldl_insert_refeed (L acc : List (RecordKey × Event))
    (hkey : ∀ p ∈ L, p.1 = event_key p.2)
    (hacc : ∀ p ∈ L, ∀ q ∈ acc, keyEq q.1 p.1 = false)
    (hpw : L.Pairwise (fun p q => keyEq p.1 q.1 = false)) :
    (L.map (fun p => p.2)).foldl insertEvent acc = acc ++ L := by
  induction L generalizing acc with
  | nil => simp
  | cons p L ih =>
    rw [List.map_cons, List.foldl_cons]
    have hk : event_key p.2 = p.1 := (hkey p (List.mem_cons_self p L)).symm
    have hdup : isDup acc (event_key p.2) = false := by
      rw [hk, isDup_eq_false_iff]
      exact fun q hq => hacc p (List.mem_cons_self p L) q hq
    have hstep : insertEvent acc p.2 = acc ++ [p] := by
      rw [insertEvent, hdup]
      simp only [Bool.false_eq_true, if_false, hk]
    rw [hstep]
    rw [ih (acc ++ [p])
      (fun q hq => hkey q (List.mem_cons_of_mem _ hq))
      (fun q hq r hr => by
        rcases List.mem_append.mp hr with h1 | h1
        · exact hacc q (List.mem_cons_of_mem _ hq) r h1
        · rcases List.mem_singleton.mp h1 with rfl
          exact (List.pairwise_cons.mp hpw).1 q hq)
      (List.pairwise_cons.mp hpw).2]
    rw [List.append_assoc, List.singleton_append]

/-! ### Remaining helper lemmas -/

theorem store_order_of_eq {T : List Event} {S : List (RecordKey × Event)}
    (hS : S = dedupFirst T) (i j : Nat) (hi : i < S.length) (hj : j < S.length)
    (hij : i < j) :
    firstHit (S.get ⟨i, hi⟩).1 T < firstHit (S.get ⟨j, hj⟩).1 T := by
  subst hS
  exact List.pairwise_iff_get.mp (dedupFirst_order T) ⟨i, hi⟩ ⟨j, hj⟩ hij

/-- The per-line step only ever appends to the store: positions of existing
entries never change. -/
theorem processLine_append_only (parse : String → Option Event) (st : RunState)
    (line : String) :
    ∃ tail, (processLine parse st line).all_events = st.all_events ++ tail := by
  rw [processLine_all_events]
  cases lineRecord parse line with
  | none => exact ⟨[], (List.append_nil _).symm⟩
  | some e =>
    simp only [insertEvent]
    split
    · exact ⟨[], (List.append_nil _).symm⟩
    · exact ⟨_, rfl⟩

/-- Key equality is a congruence for membership tests: equal keys give the
same comparison against every stored key. -/
theorem keyEq_congr_right {k1 k2 : RecordKey} (h : keyEq k1 k2 = true)
    (k : RecordKey) : keyEq k k1 = keyEq k k2 := by
  rw [keyEq_iff_canonKey] at h
  cases hk : keyEq k k1 with
  | true =>
    rw [keyEq_iff_canonKey] at hk
    exact ((keyEq_iff_canonKey k k2).mpr (hk.trans h)).symm
  | false =>
    cases hk2 : keyEq k k2 with
    | true =>
      exfalso
      rw [keyEq_iff_canonKey] at hk2
      have ht : keyEq k k1 = true := (keyEq_iff_canonKey k k1).mpr (hk2.trans h.symm)
      rw [ht] at hk
      exact absurd hk (by simp)
    | false => rfl

/-- The line splitter never returns the empty list. -/
theorem splitNlAux_ne_nil (cs cur : List Char) : splitNlAux cs cur ≠ [] := by
  induction cs generalizing cur with
  | nil => simp [splitNlAux]
  | cons c cs ih =>
    rw [splitNlAux]
    split
    · simp
    · exact ih _

/-! ### The claims -/

/-- C1: over a fixed oldest-to-newest sequence of snapshots, any two store
entries at positions `i < j` have strictly increasing first-encounter
positions in the global traversal (earlier revision, or same revision and
earlier line, means earlier `firstHit`); hence iteration order — and the
output file, which is written in iteration order — follows first-encounter
order.  Moreover a record's position is fixed at its first insertion: the
per-line step only ever appends to the store. -/
theorem C1_order_preservation (parse : String → Option Event)
    (revs : List (Option (List String))) (i j : Nat)
    (hi : i < (runMerge parse revs).all_events.length)
    (hj : j < (runMerge parse revs).all_events.length) (hij : i < j) :
    firstHit ((runMerge parse revs).all_events.get ⟨i, hi⟩).1 (traversal parse revs)
        < firstHit ((runMerge parse revs).all_events.get ⟨j, hj⟩).1 (traversal parse revs)
      ∧ ∀ (st : RunState) (line : String),
          ∃ tail, (processLine parse st line).all_events = st.all_events ++ tail :=
  ⟨store_order_of_eq (runMerge_all_events parse revs) i j hi hj hij,
   fun st line => processLine_append_only parse st line⟩

/-- C1 witness: a concrete two-record run in which the record first
encountered on the earlier line precedes the later one. -/
theorem C1_order_preservation_witness :
    firstHit ((runMerge pXY [some ["a", "b"]]).all_events.get ⟨0, by decide⟩).1
        (traversal pXY [some ["a", "b"]])
      < firstHit ((runMerge pXY [some ["a", "b"]]).all_events.get ⟨1, by decide⟩).1
        (traversal pXY [some ["a", "b"]])
      ∧ ∀ (st : RunState) (line : String),
          ∃ tail, (processLine pXY st line).all_events = st.all_events ++ tail :=
  C1_order_preservation pXY [some ["a", "b"]] 0 1 (by decide) (by decide) (by decide)

/-- C2: the store holds, for each key, exactly the first-encountered record
with that key (by oldest-to-newest revision order, then line order); every
parsed record's key is represented; `n_unique` counts the stored records,
`n_unique + n_skipped` counts all parsed records, so each of the
`length traversal - length store` discarded duplicates bumps `n_skipped` by
exactly one; and a duplicate line changes nothing but `n_skipped`,
discarding the new record with all its fields. -/
theorem C2_dedup_first_wins (parse : String → Option Event)
    (revs : List (Option (List String))) :
    (∀ p ∈ (runMerge parse revs).all_events,
        p.1 = event_key p.2 ∧
          (traversal parse revs).find? (fun e => keyEq (event_key e) p.1) = some p.2)
      ∧ (∀ e ∈ traversal parse revs,
          ∃ p ∈ (runMerge parse revs).all_events, keyEq p.1 (event_key e) = true)
      ∧ (runMerge parse revs).n_unique = (runMerge parse revs).all_events.length
      ∧ (runMerge parse revs).n_unique + (runMerge parse revs).n_skipped
          = (traversal parse revs).length
      ∧ ∀ (st : RunState) (line : String) (e : Event), pyStrip line ≠ "" →
          parse line = some e → isDup st.all_events (event_key e) = true →
          processLine parse st line = { st with n_skipped := st.n_skipped + 1 } := by
  refine ⟨?_, ?_, runMerge_unique_len parse revs, ?_, ?_⟩
  · intro p hp
    rw [runMerge_all_events] at hp
    exact ⟨(dedupFirst_entry _ p hp).1, dedupFirst_find _ p hp⟩
  · intro e he
    rw [runMerge_all_events]
    exact dedupFirst_complete _ e he
  · have h := foldl_processRevision_record_count parse revs initState
    simpa [runMerge, initState] using h
  · intro st line e hb hp hd
    exact processLine_dup parse st line e hb hp hd

/-- C2 witness: in a concrete run that feeds the same record twice, the
duplicate line increments only `n_skipped`; the accounting instance also
holds. -/
theorem C2_dedup_first_wins_witness :
    (runMerge pDup [some ["a"]]).n_unique + (runMerge pDup [some ["a"]]).n_skipped
        = (traversal pDup [some ["a"]]).length
      ∧ processLine pDup (runMerge pDup [some ["a"]]) "a"
          = { runMerge pDup [some ["a"]] with
              n_skipped := (runMerge pDup [some ["a"]]).n_skipped + 1 } :=
  ⟨(C2_dedup_first_wins pDup [some ["a"]]).2.2.2.1,
   (C2_dedup_first_wins pDup [some ["a"]]).2.2.2.2 (runMerge pDup [some ["a"]]) "a" evX
     (by decide) rfl (by decide)⟩

/-- C3: at the end of every run, unique admissions plus rejected duplicates
plus parse failures equal the total number of non-blank lines over the
non-skipped revisions (blank and all-whitespace lines, and all lines of
skipped revisions, are excluded from that count by definition of
`countNonBlank`). -/
theorem C3_accounting_identity (parse : String → Option Event)
    (revs : List (Option (List String))) :
    (runMerge parse revs).n_unique + (runMerge parse revs).n_skipped
        + (runMerge parse revs).n_parse_errors
      = countNonBlank revs := by
  have h := foldl_processRevision_sum parse revs initState
  simpa [runMerge, initState] using h

theorem isDup_congr {k1 k2 : RecordKey} (h : keyEq k1 k2 = true)
    (store : List (RecordKey × Event)) : isDup store k1 = isDup store k2 := by
  induction store with
  | nil => rfl
  | cons p rest ih =>
    simp only [isDup, List.any_cons] at ih ⊢
    rw [keyEq_congr_right h p.1, ih]

/-- C4: the key of a parsed record is the 3-tuple of the values of its
"event", "user_id" and "time" fields, with defaults empty string, empty
string and numeric zero when the field is absent; and this key is the sole
dedup identity — two records with Python-equal keys receive the same
membership verdict against any store, regardless of all other fields. -/
theorem C4_record_key (e : Event) :
    ((e.find? (fun p => p.1 == "event") = none → (event_key e).1 = Json.str "")
        ∧ ∀ q, e.find? (fun p => p.1 == "event") = some q → (event_key e).1 = q.2)
      ∧ ((e.find? (fun p => p.1 == "user_id") = none → (event_key e).2.1 = Json.str "")
        ∧ ∀ q, e.find? (fun p => p.1 == "user_id") = some q → (event_key e).2.1 = q.2)
      ∧ ((e.find? (fun p => p.1 == "time") = none → (event_key e).2.2 = Json.num 0)
        ∧ ∀ q, e.find? (fun p => p.1 == "time") = some q → (event_key e).2.2 = q.2)
      ∧ ∀ (st : RunState) (e2 : Event), keyEq (event_key e) (event_key e2) = true →
          isDup st.all_events (event_key e) = isDup st.all_events (event_key e2) := by
  refine ⟨⟨?_, ?_⟩, ⟨?_, ?_⟩, ⟨?_, ?_⟩, ?_⟩
  · intro h; simp [event_key, jget, h]
  · intro q h; simp [event_key, jget, h]
  · intro h; simp [event_key, jget, h]
  · intro q h; simp [event_key, jget, h]
  · intro h; simp [event_key, jget, h]
  · intro q h; simp [event_key, jget, h]
  · intro st e2 h
    exact isDup_congr h st.all_events

/-- C4 witness: for the concrete record with "event" `"x"`, the first key
component is `"x"`; and the boolean- and number-keyed records get the same
membership verdict in a concrete store. -/
theorem C4_record_key_witness :
    (event_key evX).1 = Json.str "x"
      ∧ isDup (runMerge pBoolNum [some ["t"]]).all_events (event_key evUBool)
          = isDup (runMerge pBoolNum [some ["t"]]).all_events (event_key evUNum) :=
  ⟨(C4_record_key evX).1.2 ("event", Json.str "x") rfl,
   (C4_record_key evUBool).2.2.2 (runMerge pBoolNum [some ["t"]]) evUNum (by decide)⟩

/-- C5: a line that fails to parse never aborts the run: folding the line
loop over `pre ++ line :: post` gives exactly the state of the loop over
`pre ++ post` except that `n_parse_errors` is one larger — the store and
every other counter are untouched by the bad line, and all later lines are
still processed. -/
theorem C5_parse_failure_continues (parse : String → Option Event)
    (pre post : List String) (line : String) (st : RunState)
    (hb : pyStrip line ≠ "") (hp : parse line = none) :
    (pre ++ line :: post).foldl (processLine parse) st
      = { (pre ++ post).foldl (processLine parse) st with
          n_parse_errors :=
            ((pre ++ post).foldl (processLine parse) st).n_parse_errors + 1 } := by
  rw [List.foldl_append, List.foldl_append, List.foldl_cons,
    processLine_bad parse _ line hb hp]
  exact foldl_processLine_parse_shift parse post _ 1

/-- C5 witness: a concrete run with a malformed line between two good ones. -/
theorem C5_parse_failure_continues_witness :
    (["a"] ++ "z" :: ["a"]).foldl (processLine pDup) initState
      = { (["a"] ++ ["a"]).foldl (processLine pDup) initState with
          n_parse_errors :=
            ((["a"] ++ ["a"]).foldl (processLine pDup) initState).n_parse_errors + 1 } :=
  C5_parse_failure_continues pDup ["a"] ["a"] "z" initState (by decide) rfl

/-- C6: a revision whose snapshot is absent is skipped without ingesting:
the state — store, every counter, `n_lines` included — is exactly unchanged,
the loop over the remaining revisions proceeds as if the revision were not
there, and if the other revisions leave a non-empty store the run still
succeeds and writes their records. -/
theorem C6_missing_snapshot (parse : String → Option Event) (st : RunState)
    (pre post : List (Option (List String)))
    (h : (runMerge parse (pre ++ post)).all_events.isEmpty = false) :
    processRevision parse st none = st
      ∧ runMerge parse (pre ++ none :: post) = runMerge parse (pre ++ post)
      ∧ finalOutcome (runMerge parse (pre ++ none :: post))
          = .success ((runMerge parse (pre ++ post)).all_events.map (fun p => p.2)) := by
  have hskip : runMerge parse (pre ++ none :: post) = runMerge parse (pre ++ post) :=
    foldl_processRevision_skip parse pre post initState
  refine ⟨rfl, hskip, ?_⟩
  rw [hskip, finalOutcome, h]
  rfl

/-- C6 witness: one readable revision with one record plus one unreadable
revision; the run succeeds with the single record. -/
theorem C6_missing_snapshot_witness :
    processRevision pDup initState none = initState
      ∧ runMerge pDup ([some ["a"]] ++ none :: [])
          = runMerge pDup ([some ["a"]] ++ [])
      ∧ finalOutcome (runMerge pDup ([some ["a"]] ++ none :: []))
          = .success ((runMerge pDup ([some ["a"]] ++ [])).all_events.map (fun p => p.2)) :=
  C6_missing_snapshot pDup initState [some ["a"]] [] (by decide)

/-- C7: when the repository cannot be obtained, or the merged store ends
empty (in particular when no history was found), the run ends in the
distinct failure outcome — exit status 1, no output file written; when the
store is non-empty the output file is written with the store's records in
iteration order and the run succeeds. -/
theorem C7_exit_status (repoOk : Bool) (parse : String → Option Event)
    (revs : List (Option (List String))) :
    mainResult false parse revs = .failure
      ∧ ((runMerge parse revs).all_events.isEmpty = true →
          mainResult repoOk parse revs = .failure)
      ∧ ((runMerge parse revs).all_events.isEmpty = false →
          mainResult true parse revs
            = .success ((runMerge parse revs).all_events.map (fun p => p.2))) := by
  refine ⟨rfl, ?_, ?_⟩
  · intro h
    cases repoOk with
    | false => rfl
    | true => rw [mainResult, if_pos rfl, finalOutcome, h]; rfl
  · intro h
    rw [mainResult, if_pos rfl, finalOutcome, h]
    rfl

/-- C7 witness: the empty history fails; a one-record history succeeds with
that record written. -/
theorem C7_exit_status_witness :
    mainResult true pDup [] = .failure
      ∧ mainResult true pDup [some ["a"]]
        = .success ((runMerge pDup [some ["a"]]).all_events.map (fun p => p.2)) :=
  ⟨(C7_exit_status true pDup []).2.1 (by decide),
   (C7_exit_status true pDup [some ["a"]]).2.2 (by decide)⟩

/-- C8: feeding a run's serialized output back into a fresh engine as the
lines of one sole revision reproduces the store exactly — same keys, same
records, same iteration order, nothing removed, added or reordered.  The
external serializer/parser pair enters through the hypothesis that each
stored record round-trips to a non-blank line (true of `json.dumps` /
`json.loads` on the records the script stores). -/
theorem C8_idempotence (parse parse2 : String → Option Event)
    (serialize : Event → String) (revs : List (Option (List String)))
    (hser : ∀ p ∈ (runMerge parse revs).all_events,
      pyStrip (serialize p.2) ≠ "" ∧ parse2 (serialize p.2) = some p.2) :
    (runMerge parse2
        [some ((runMerge parse revs).all_events.map (fun p => serialize p.2))]).all_events
      = (runMerge parse revs).all_events := by
  rw [runMerge_all_events parse2]
  have ht : traversal parse2
        [some ((runMerge parse revs).all_events.map (fun p => serialize p.2))]
      = (runMerge parse revs).all_events.map (fun p => p.2) := by
    rw [traversal, traversal, revRecords, List.append_nil]
    exact filterMap_lineRecord_serialized parse2 serialize _ hser
  rw [ht, dedupFirst]
  have hS := runMerge_all_events parse revs
  refine (foldl_insert_refeed _ [] ?_ ?_ ?_).trans (List.nil_append _)
  · intro p hp
    rw [hS] at hp
    exact (dedupFirst_entry _ p hp).1
  · intro p _ q hq
    exact absurd hq (List.not_mem_nil q)
  · rw [hS]
    exact dedupFirst_keys_distinct _

/-- C8 witness: a one-record store refed through a concrete round-tripping
serializer/parser pair reproduces itself. -/
theorem C8_idempotence_witness :
    (runMerge (fun s => if s = "b" then some evX else none)
        [some ((runMerge pDup [some ["a"]]).all_events.map (fun _ => "b"))]).all_events
      = (runMerge pDup [some ["a"]]).all_events :=
  C8_idempotence pDup (fun s => if s = "b" then some evX else none) (fun _ => "b")
    [some ["a"]]
    (by
      intro p hp
      rw [show (runMerge pDup [some ["a"]]).all_events
          = [((Json.str "x", Json.str "", Json.num 0), evX)] from rfl] at hp
      rw [List.mem_singleton] at hp
      subst hp
      exact ⟨by decide, rfl⟩)

/-- C9 counterexample: the claim asserts that key components compare with
their type and no coercion, but Python numeric equality makes the boolean
`true` equal to the number `1`: two records whose "user_id" fields are
`true` and `1` get equal keys, and a run over both admits only one and
rejects the other as a duplicate. -/
theorem C9_counterexample :
    keyEq (event_key evUBool) (event_key evUNum) = true
      ∧ (runMerge pBoolNum [some ["t", "n"]]).n_unique = 1
      ∧ (runMerge pBoolNum [some ["t", "n"]]).n_skipped = 1 :=
  ⟨by decide, by decide, by decide⟩

/-- C9 amended: key components compare as parsed values under Python
equality: a string never equals a number (so `user_id` number 1 and string
"1" are distinct), but a boolean equals the numbers 1/0 (so `user_id`
`true` and `1` collide); and a field explicitly present with its default
value yields the same key component as the field being absent. -/
theorem C9_amended (s : String) (n : Int) (b : Bool) (a t : Json) (e : Event) :
    (pyEq (Json.str s) (Json.num n) = false ∧ pyEq (Json.num n) (Json.str s) = false)
      ∧ (pyEq (Json.bool b) (Json.num n) = true ↔
          ((b = true ∧ n = 1) ∨ (b = false ∧ n = 0)))
      ∧ (e.find? (fun p => p.1 == "user_id") = none → (event_key e).2.1 = Json.str "")
      ∧ keyEq (event_key [("event", a), ("user_id", Json.str ""), ("time", t)])
          (event_key [("event", a), ("time", t)]) = true := by
  refine ⟨⟨?_, ?_⟩, ?_, ?_, ?_⟩
  · simp [pyEq, canon, jeq]
  · simp [pyEq, canon, jeq]
  · cases b with
    | false =>
      have hc : pyEq (Json.bool false) (Json.num n) = ((0 : Int) == n) := rfl
      rw [hc, beq_iff_eq]
      simp [eq_comm]
    | true =>
      have hc : pyEq (Json.bool true) (Json.num n) = ((1 : Int) == n) := rfl
      rw [hc, beq_iff_eq]
      simp [eq_comm]
  · intro h
    simp [event_key, jget, h]
  · have h : event_key [("event", a), ("user_id", Json.str ""), ("time", t)]
        = event_key [("event", a), ("time", t)] := rfl
    rw [h]
    exact keyEq_refl _

/-- C9 amended, witness: concrete instances — `"1"` versus `1` distinct,
`true` versus `1` equal, and the absent-field default. -/
theorem C9_amended_witness :
    pyEq (Json.str "1") (Json.num 1) = false
      ∧ (pyEq (Json.bool true) (Json.num 1) = true ↔
          ((true = true ∧ (1 : Int) = 1) ∨ (true = false ∧ (1 : Int) = 0)))
      ∧ (event_key []).2.1 = Json.str "" :=
  ⟨(C9_amended "1" 1 true (Json.str "x") (Json.num 0) []).1.1,
   (C9_amended "1" 1 true (Json.str "x") (Json.num 0) []).2.1,
   (C9_amended "1" 1 true (Json.str "x") (Json.num 0) []).2.2.1 rfl⟩

/-- C10: when the revision-listing command succeeds with empty output the
returned commit list is `[""]`, a one-element list holding the empty
string — never the empty list, which is returned exactly when the command
itself fails; the run then processes that single pseudo-revision, whose
snapshot read fails, and skips it, ending in the initial state. -/
theorem C10_empty_commit_list (s : String) (snap : String → Option String)
    (parse : String → Option Event) (hs : pyStrip s = "")
    (hsnap : snap "" = none) :
    get_file_commits (some s) = [""]
      ∧ get_file_commits none = []
      ∧ (∀ s2 : String, get_file_commits (some s2) ≠ [])
      ∧ mainMerge parse (get_file_commits (some s)) snap = initState := by
  have h1 : get_file_commits (some s) = [""] := by
    rw [get_file_commits, hs]
    rfl
  refine ⟨h1, rfl, ?_, ?_⟩
  · intro s2
    rw [get_file_commits]
    exact splitNlAux_ne_nil _ _
  · rw [h1]
    have h2 : mainMerge parse [""] snap
        = processRevision parse initState ((snap "").map contentLines) := rfl
    rw [h2, hsnap]
    rfl

/-- C10 witness: the empty listing output yields `[""]` and the run over it
ends in the initial state. -/
theorem C10_empty_commit_list_witness :
    get_file_commits (some "") = [""]
      ∧ get_file_commits none = []
      ∧ (∀ s2 : String, get_file_commits (some s2) ≠ [])
      ∧ mainMerge pDup (get_file_commits (some "")) (fun _ => none) = initState :=
  C10_empty_commit_list "" (fun _ => none) pDup rfl rfl
